import Mathlib

/-!
Verification development for the rag-pdf-assistant repository.

The development is a shallow embedding of the Python sources:
  * `ingest.py`  — PDF chunking (`chunk_texts`) and index building (`ingest_pdf`),
  * `retriever.py` — candidate search and two-pass selection (`retrieve`) and
    grounded answer generation (`generate_answer`).

Modelling conventions:
  * Python strings are Lean `String`s; `str.split()`, slicing `s[:n]`,
    `str.strip()` and `" ".join(...)` are re-implemented below over `String.data`
    with Python's semantics (`pySplit`, `pyTake`, `pyStrip`, `joinSep`).
  * Embedding vectors (numpy float32 rows) are modelled as `List Int`: the
    selection logic under verification only compares exact squared L2
    distances, and integer-valued float32 vectors are exact, so nothing about
    the control flow is lost.
  * The FAISS flat L2 index is a dimension plus the list of stored vectors;
    `index.search` is exact nearest-neighbour search by squared L2 distance,
    ties broken by ascending position (a stable sort over positions).
  * The external sentence-transformer is an arbitrary function
    `embed : String → List Int`; the external chat-completion call is an
    arbitrary `LLMOutcome` (no client configured / returned content / raised
    error), mirroring the three control paths in `generate_answer`.
  * Disk state (the `.index` / `_meta.json` pair) is a single
    `Option IndexState`; `none` models absent files, and a raised Python
    exception is an `Except.error` which leaves the disk state unchanged
    (in `ingest_pdf` the save happens only after all checks pass).
-/

/-- A page as produced by `read_pdf`: `{"page": page_num, "text": text}`. -/
structure Page where
  page : Nat
  text : String
deriving DecidableEq, Repr

/-- A chunk as produced by `chunk_texts`:
`{"text": chunk_text, "page": p["page"], "chunk_idx": idx}`. -/
structure Chunk where
  text : String
  page : Nat
  chunk_idx : Nat
deriving DecidableEq, Repr

/-- A stored metadata record, as written by `ingest_pdf`:
`{"source": basename, "page": ..., "chunk_idx": ..., "text": text[:2000]}`. -/
structure Meta where
  source : String
  page : Nat
  chunk_idx : Nat
  text : String
deriving DecidableEq, Repr, Inhabited

/-- Python `str.split()` helper: accumulate the current word (reversed) and cut
at whitespace, dropping empty words. -/
def splitWSAux : List Char → List Char → List String
  | [], cur => if cur = [] then [] else [String.mk cur.reverse]
  | c :: rest, cur =>
      if c.isWhitespace then
        if cur = [] then splitWSAux rest []
        else String.mk cur.reverse :: splitWSAux rest []
      else splitWSAux rest (c :: cur)

/-- Python `str.split()` with no argument: split on runs of whitespace,
no empty tokens. -/
def pySplit (s : String) : List String :=
  splitWSAux s.data []

/-- Python `sep.join(items)`. -/
def joinSep (sep : String) : List String → String
  | [] => ""
  | [x] => x
  | x :: y :: rest => x ++ sep ++ joinSep sep (y :: rest)

/-- Python slice `s[:n]` (first `n` code points). -/
def pyTake (s : String) (n : Nat) : String :=
  String.mk (s.data.take n)

/-- Python `s.strip()`: drop whitespace on both ends. -/
def pyStrip (s : String) : String :=
  String.mk (((s.data.dropWhile Char.isWhitespace).reverse.dropWhile Char.isWhitespace).reverse)

/-- The window `tokens[i : i + chunk_size]` of the chunking loop. -/
def window (tokens : List String) (chunk_size i : Nat) : List String :=
  (tokens.drop i).take chunk_size

/-- The chunking `while` loop of `chunk_texts` for one page:
while `i < len(tokens)` emit `" ".join(tokens[i : i + chunk_size])` and advance
`i` by `max(1, chunk_size - overlap)`, incrementing `chunk_idx`. -/
def chunkFrom (tokens : List String) (pg chunk_size overlap i idx : Nat) : List Chunk :=
  if h : i < tokens.length then
    { text := joinSep " " (window tokens chunk_size i), page := pg, chunk_idx := idx }
      :: chunkFrom tokens pg chunk_size overlap (i + max 1 (chunk_size - overlap)) (idx + 1)
  else []
termination_by tokens.length - i
decreasing_by
  have h1 : 1 ≤ max 1 (chunk_size - overlap) := le_max_left _ _
  omega

/-- `chunk_texts(pages, chunk_size=800, overlap=100)` from `ingest.py`: per
page, split the text on whitespace and run the sliding-window loop, with
`chunk_idx` restarting at 0 on each page; all chunks go into one list. -/
def chunk_texts (pages : List Page) (chunk_size : Nat := 800) (overlap : Nat := 100) :
    List Chunk :=
  pages.flatMap (fun p => chunkFrom (pySplit p.text) p.page chunk_size overlap 0 0)

/-- The chunk count the spec claims for one page
(`ceil(max(0, T - chunk_size) / (chunk_size - overlap)) + (1 if T > 0 else 0)`,
written over naturals for `chunk_size > overlap`). -/
def claimedChunkCount (T chunk_size overlap : Nat) : Nat :=
  ((T - chunk_size) + (chunk_size - overlap) - 1) / (chunk_size - overlap)
    + (if 0 < T then 1 else 0)

/-- The chunk count the loop actually produces for `T` tokens and step `s ≥ 1`:
`ceil(T / s)`. -/
def actualChunkCount (T s : Nat) : Nat :=
  (T + s - 1) / s

theorem chunkFrom_length (tokens : List String) (pg chunk_size overlap : Nat) :
    ∀ n i idx, tokens.length - i = n →
      (chunkFrom tokens pg chunk_size overlap i idx).length
        = actualChunkCount (tokens.length - i) (max 1 (chunk_size - overlap)) := by
  intro n
  induction n using Nat.strong_induction_on with
  | _ n ih =>
    intro i idx hn
    set s := max 1 (chunk_size - overlap) with hs
    have hs1 : 1 ≤ s := le_max_left _ _
    rw [chunkFrom]
    by_cases h : i < tokens.length
    · rw [dif_pos h]
      have hrec := ih (tokens.length - (i + s)) (by omega) (i + s) (idx + 1) rfl
      rw [List.length_cons, hrec]
      unfold actualChunkCount
      set L := tokens.length
      have hn1 : 1 ≤ L - i := by omega
      by_cases hcase : L - i ≤ s
      · have h1 : L - (i + s) = 0 := by omega
        rw [h1]
        have h2 : (0 + s - 1) / s = 0 := Nat.div_eq_of_lt (by omega)
        have h3 : (L - i + s - 1) / s = 1 :=
          Nat.div_eq_of_lt_le (by omega) (by omega)
        omega
      · have h1 : L - (i + s) = (L - i) - s := by omega
        rw [h1]
        have h2 : (L - i) - s + s - 1 = (L - i) - 1 := by omega
        have h3 : L - i + s - 1 = ((L - i) - 1) + s := by omega
        rw [h2, h3, Nat.add_div_right _ (by omega)]
    · rw [dif_neg h]
      have h0 : tokens.length - i = 0 := by omega
      simp [actualChunkCount, h0, Nat.div_eq_of_lt (by omega : s - 1 < s)]

theorem chunkFrom_length_closed (tokens : List String) (pg chunk_size overlap : Nat) :
    (chunkFrom tokens pg chunk_size overlap 0 0).length
      = actualChunkCount tokens.length (max 1 (chunk_size - overlap)) := by
  have := chunkFrom_length tokens pg chunk_size overlap (tokens.length - 0) 0 0 rfl
  simpa using this

theorem chunkFrom_mem (tokens : List String) (pg chunk_size overlap : Nat) :
    ∀ m i idx, i + m * max 1 (chunk_size - overlap) < tokens.length →
      ({ text := joinSep " " (window tokens chunk_size (i + m * max 1 (chunk_size - overlap))),
         page := pg,
         chunk_idx := idx + m } : Chunk)
        ∈ chunkFrom tokens pg chunk_size overlap i idx := by
  intro m
  induction m with
  | zero =>
    intro i idx hi
    simp only [Nat.zero_mul, Nat.add_zero] at hi ⊢
    rw [chunkFrom, dif_pos hi]
    exact List.mem_cons_self _ _
  | succ m ihm =>
    intro i idx hi
    set s := max 1 (chunk_size - overlap) with hs
    have hs1 : 1 ≤ s := le_max_left _ _
    have hi0 : i < tokens.length := by
      have : i ≤ i + (m + 1) * s := Nat.le_add_right _ _
      omega
    rw [chunkFrom, dif_pos hi0]
    have harg : (i + s) + m * s = i + (m + 1) * s := by ring
    have := ihm (i + s) (idx + 1) (by omega)
    rw [harg] at this
    have hidx : idx + 1 + m = idx + (m + 1) := by omega
    rw [hidx] at this
    exact List.mem_cons_of_mem _ this

theorem chunk_texts_single (p : Page) (chunk_size overlap : Nat) :
    chunk_texts [p] chunk_size overlap
      = chunkFrom (pySplit p.text) p.page chunk_size overlap 0 0 := by
  simp [chunk_texts]

/-- C9: the chunker terminates on every input: the window advance
`max(1, chunk_size - overlap)` is at least 1 per step, and the sliding-window
loop over the finite token list of each page ends after exactly
`ceil(T / step)` iterations, for every `chunk_size` and `overlap`
(including `overlap ≥ chunk_size`). -/
theorem chunker_terminates (pages : List Page) (chunk_size overlap : Nat) :
    1 ≤ max 1 (chunk_size - overlap) ∧
    (chunk_texts pages chunk_size overlap).length
      = (pages.map (fun p =>
          actualChunkCount (pySplit p.text).length (max 1 (chunk_size - overlap)))).sum := by
  refine ⟨le_max_left _ _, ?_⟩
  unfold chunk_texts
  rw [List.length_flatMap]
  congr 1
  apply List.map_congr_left
  intro p _
  exact chunkFrom_length_closed (pySplit p.text) p.page chunk_size overlap

/-- C3 (amended): for `chunk_size > overlap ≥ 0` the windows cover every token
at least once, and the number of chunks for a page with `T` tokens equals
`ceil(T / (chunk_size - overlap))` (the loop also emits trailing windows that
start before the end of the page, so the count is `ceil(T / step)`, not
`ceil(max(0, T - chunk_size) / step) + 1`). -/
theorem chunk_coverage_and_count (p : Page) (chunk_size overlap : Nat)
    (hov : overlap < chunk_size) :
    ((chunk_texts [p] chunk_size overlap).length
        = actualChunkCount (pySplit p.text).length (chunk_size - overlap)) ∧
    (∀ j (hj : j < (pySplit p.text).length),
      ∃ c ∈ chunk_texts [p] chunk_size overlap,
        c.text = joinSep " "
          (window (pySplit p.text) chunk_size (c.chunk_idx * (chunk_size - overlap))) ∧
        c.chunk_idx * (chunk_size - overlap) ≤ j ∧
        j < c.chunk_idx * (chunk_size - overlap) + chunk_size ∧
        (pySplit p.text).get ⟨j, hj⟩
          ∈ window (pySplit p.text) chunk_size (c.chunk_idx * (chunk_size - overlap))) := by
  set tokens := pySplit p.text with htok
  set s := chunk_size - overlap with hsdef
  have hs1 : 1 ≤ s := by omega
  have hmax : max 1 (chunk_size - overlap) = s := by omega
  constructor
  · rw [chunk_texts_single, chunkFrom_length_closed, hmax]
  · intro j hj
    set m := j / s with hm
    have h1 := Nat.div_add_mod j s
    rw [← hm] at h1
    have h2 := Nat.mod_lt j (show 0 < s by omega)
    have hcomm : m * s = s * m := Nat.mul_comm _ _
    have hij : m * s ≤ j := by omega
    have hij2 : j < m * s + s := by omega
    have hsc : s ≤ chunk_size := by omega
    have hlt : 0 + m * max 1 (chunk_size - overlap) < tokens.length := by
      rw [hmax]; omega
    have hmem := chunkFrom_mem tokens p.page chunk_size overlap m 0 0 hlt
    rw [chunk_texts_single]
    refine ⟨_, hmem, ?_, ?_, ?_, ?_⟩
    · simp [hmax]
    · simp only [Nat.zero_add, hmax]; omega
    · simp only [Nat.zero_add, hmax]; omega
    · simp only [Nat.zero_add, hmax]
      have hwl : j - m * s < (window tokens chunk_size (m * s)).length := by
        simp only [window, List.length_take, List.length_drop]
        omega
      have hval : (window tokens chunk_size (m * s)).get ⟨j - m * s, hwl⟩
          = tokens.get ⟨j, hj⟩ := by
        simp only [List.get_eq_getElem, window, List.getElem_take, List.getElem_drop]
        congr 1
        omega
      have hmem2 : (window tokens chunk_size (m * s)).get ⟨j - m * s, hwl⟩
          ∈ window tokens chunk_size (m * s) := by
        simp only [List.get_eq_getElem]
        exact List.getElem_mem hwl
      rw [hval] at hmem2
      exact hmem2

/-- C3 counterexample: with `chunk_size = 3 > overlap = 1 ≥ 0` and a page of
`T = 3` tokens, the loop emits 2 chunks (at `i = 0` and `i = 2`) while the
claimed formula `ceil(max(0, T - chunk_size) / (chunk_size - overlap)) + 1`
gives 1. -/
theorem chunk_count_claim_false :
    (1 : Nat) < 3 ∧
    (pySplit "a b c").length = 3 ∧
    (chunk_texts [{ page := 1, text := "a b c" }] 3 1).length
      ≠ claimedChunkCount (pySplit "a b c").length 3 1 := by
  refine ⟨by omega, by decide, ?_⟩
  rw [chunk_texts_single]
  rw [chunkFrom]; rw [chunkFrom]; rw [chunkFrom]
  decide

/-- Witness for the amended C3 at a concrete input. -/
theorem chunk_coverage_and_count_witness :
    (chunk_texts [{ page := 1, text := "a b" }] 2 0).length
      = actualChunkCount (pySplit "a b").length 2 :=
  (chunk_coverage_and_count { page := 1, text := "a b" } 2 0 (by omega)).1

/-- A FAISS flat L2 index: the dimension fixed at creation
(`faiss.IndexFlatL2(dim)`, read back as `index.d`) and the stored vectors
(`index.ntotal` rows, appended by `index.add`). -/
structure FaissIndex where
  d : Nat
  vectors : List (List Int)
deriving DecidableEq, Repr

/-- The persisted pair `P + ".index"` / `P + "_meta.json"`: the index and the
parallel metadata list, treated as one atomic value; `Option` at the use sites
models absent files. -/
structure IndexState where
  index : FaissIndex
  metas : List Meta
deriving DecidableEq, Repr

/-- The errors `ingest_pdf` can surface. `dimensionMismatch` is the
`ValueError("Dimension mismatch ...")` the code raises; `noTextExtracted` is
the spec's name for a no-chunks failure (stated here only so the claim about
it can be expressed — the code never raises it). -/
inductive IngestError where
  | dimensionMismatch
  | noTextExtracted
deriving DecidableEq, Repr

instance {ε α : Type} [DecidableEq ε] [DecidableEq α] : DecidableEq (Except ε α) := fun x y =>
  match x, y with
  | Except.ok a, Except.ok b =>
      if h : a = b then isTrue (by rw [h])
      else isFalse (fun hc => h (Except.ok.inj hc))
  | Except.error a, Except.error b =>
      if h : a = b then isTrue (by rw [h])
      else isFalse (fun hc => h (Except.error.inj hc))
  | Except.ok _, Except.error _ => isFalse (fun hc => Except.noConfusion hc)
  | Except.error _, Except.ok _ => isFalse (fun hc => Except.noConfusion hc)

/-- `os.path.basename` for POSIX paths: everything after the last slash. -/
def basename (p : String) : String :=
  String.mk (p.data.foldl (fun acc c => if c = '/' then [] else acc ++ [c]) [])

/-- The Meta record `ingest_pdf` appends for a chunk:
`{"source": basename(path), "page": ..., "chunk_idx": ..., "text": text[:2000]}`. -/
def chunkMeta (path : String) (c : Chunk) : Meta :=
  { source := basename path, page := c.page, chunk_idx := c.chunk_idx,
    text := pyTake c.text 2000 }

/-- `ingest_pdf(path)` from `ingest.py`, over already-extracted pages and an
abstract embedding model: chunk the pages; if there are no chunks, print and
return with the disk untouched; embed the chunk texts; load the existing
index (`none` when the files are absent); create a flat index with the batch's
dimension (`xb.shape[1]`, the length of the first row) or check it against the
existing `index.d`, raising on mismatch; append vectors and metas and save. -/
def ingest_pdf (path : String) (pages : List Page) (embed : String → List Int)
    (disk : Option IndexState) : Except IngestError (Option IndexState) :=
  let chunks := chunk_texts pages
  if chunks = [] then
    Except.ok disk
  else
    let xb := chunks.map (fun c => embed c.text)
    let newMetas := chunks.map (chunkMeta path)
    match disk with
    | none =>
        let dim := (xb.headD []).length
        Except.ok (some { index := { d := dim, vectors := xb },
                          metas := newMetas })
    | some st =>
        if st.index.d ≠ (xb.headD []).length then
          Except.error IngestError.dimensionMismatch
        else
          Except.ok (some { index := { d := st.index.d,
                                       vectors := st.index.vectors ++ xb },
                            metas := st.metas ++ newMetas })

/-- One ingest call as seen from the disk: the files after the call and the
error surfaced, if any (a raised exception leaves the files as they were,
since `save_index` runs only at the end of `ingest_pdf`). -/
def runIngest (path : String) (pages : List Page) (embed : String → List Int)
    (disk : Option IndexState) : Option IndexState × Option IngestError :=
  match ingest_pdf path pages embed disk with
  | Except.ok disk' => (disk', none)
  | Except.error e => (disk, some e)

/-- A sequence of `ingest_pdf` calls, stopping at the first error. -/
def foldIngest (embed : String → List Int) :
    List (String × List Page) → Option IndexState → Except IngestError (Option IndexState)
  | [], disk => Except.ok disk
  | (path, pages) :: rest, disk =>
      match ingest_pdf path pages embed disk with
      | Except.error e => Except.error e
      | Except.ok disk' => foldIngest embed rest disk'

/-- The alignment invariant of the spec: as many metadata records as stored
vectors, and the record at position `i` is the metadata of the chunk whose
embedding is the vector at position `i`. -/
def Aligned (embed : String → List Int) (st : IndexState) : Prop :=
  st.metas.length = st.index.vectors.length ∧
  ∀ i, i < st.metas.length →
    ∃ (path : String) (c : Chunk),
      st.index.vectors[i]? = some (embed c.text) ∧
      st.metas[i]? = some (chunkMeta path c)

/-- Alignment for the whole disk: absent files are trivially aligned. -/
def AlignedDisk (embed : String → List Int) : Option IndexState → Prop
  | none => True
  | some st => Aligned embed st

theorem ingest_preserves_aligned (path : String) (pages : List Page)
    (embed : String → List Int) (disk disk' : Option IndexState)
    (hd : AlignedDisk embed disk)
    (h : ingest_pdf path pages embed disk = Except.ok disk') :
    AlignedDisk embed disk' := by
  simp only [ingest_pdf] at h
  by_cases hc : chunk_texts pages = []
  · rw [if_pos hc] at h
    injection h with h
    rw [← h]
    exact hd
  · rw [if_neg hc] at h
    cases disk with
    | none =>
        dsimp only at h
        injection h with h
        rw [← h]
        refine ⟨by simp, ?_⟩
        intro i hi
        simp only [List.length_map] at hi
        refine ⟨path, (chunk_texts pages).get ⟨i, hi⟩, ?_, ?_⟩
        · simp [List.getElem?_map, List.getElem?_eq_getElem hi]
        · simp [List.getElem?_map, List.getElem?_eq_getElem hi]
    | some st =>
        dsimp only at h
        by_cases hdim : st.index.d ≠ (((chunk_texts pages).map (fun c => embed c.text)).headD []).length
        · rw [if_pos hdim] at h
          exact absurd h (by simp)
        · rw [if_neg hdim] at h
          injection h with h
          rw [← h]
          obtain ⟨hlen, hcorr⟩ := hd
          refine ⟨by simp [hlen], ?_⟩
          intro i hi
          simp only [List.length_append, List.length_map] at hi
          by_cases hio : i < st.metas.length
          · obtain ⟨pth, c, hv, hm⟩ := hcorr i hio
            refine ⟨pth, c, ?_, ?_⟩
            · rw [List.getElem?_append_left (by omega : i < st.index.vectors.length)]
              exact hv
            · rw [List.getElem?_append_left hio]
              exact hm
          · have hj : i - st.metas.length < (chunk_texts pages).length := by omega
            refine ⟨path, (chunk_texts pages).get ⟨i - st.metas.length, hj⟩, ?_, ?_⟩
            · rw [List.getElem?_append_right (by omega : st.index.vectors.length ≤ i)]
              have hsub : i - st.index.vectors.length = i - st.metas.length := by omega
              rw [hsub]
              simp [List.getElem?_map, List.getElem?_eq_getElem hj]
            · rw [List.getElem?_append_right (by omega : st.metas.length ≤ i)]
              simp [List.getElem?_map, List.getElem?_eq_getElem hj]

/-- C4: after any sequence of successful `ingest_pdf` calls starting from
absent files, the stored metadata and the index vectors have equal length,
and for every position `i` the metadata record at `i` is the one built from
the chunk whose embedding is the vector at `i` (each call appends one vector
and one meta per chunk, in the same order). -/
theorem ingest_alignment (embed : String → List Int)
    (jobs : List (String × List Page)) (disk' : Option IndexState)
    (h : foldIngest embed jobs none = Except.ok disk') :
    AlignedDisk embed disk' := by
  suffices hgen : ∀ (js : List (String × List Page)) (d d' : Option IndexState),
      AlignedDisk embed d → foldIngest embed js d = Except.ok d' →
      AlignedDisk embed d' from
    hgen jobs none disk' trivial h
  intro js
  induction js with
  | nil =>
      intro d d' hd hfold
      rw [foldIngest] at hfold
      injection hfold with hfold
      rw [← hfold]
      exact hd
  | cons job rest ih =>
      intro d d' hd hfold
      obtain ⟨path, pages⟩ := job
      rw [foldIngest] at hfold
      cases hcall : ingest_pdf path pages embed d with
      | error e => rw [hcall] at hfold; exact absurd hfold (by simp)
      | ok dmid =>
          rw [hcall] at hfold
          exact ih dmid d' (ingest_preserves_aligned path pages embed d dmid hd hcall) hfold

/-- C5: an ingest call whose new embeddings have a dimension different from
the existing index's raises the dimension-mismatch error and leaves the
persisted state exactly as it was before the call. -/
theorem ingest_dimension_mismatch (path : String) (pages : List Page)
    (embed : String → List Int) (st : IndexState) (dNew : Nat)
    (hch : chunk_texts pages ≠ [])
    (hdim : ∀ c ∈ chunk_texts pages, (embed c.text).length = dNew)
    (hne : dNew ≠ st.index.d) :
    runIngest path pages embed (some st)
      = (some st, some IngestError.dimensionMismatch) := by
  obtain ⟨c, rest, hcons⟩ := List.exists_cons_of_ne_nil hch
  have hhead : (((chunk_texts pages).map (fun c => embed c.text)).headD []).length = dNew := by
    rw [hcons]
    exact hdim c (by rw [hcons]; exact List.mem_cons_self _ _)
  have hmain : ingest_pdf path pages embed (some st)
      = Except.error IngestError.dimensionMismatch := by
    simp only [ingest_pdf]
    rw [if_neg hch]
    rw [if_pos (by rw [hhead]; omega)]
  simp [runIngest, hmain]

/-- C6 (amended): an ingest call on a document whose pages yield no chunks
returns successfully (it prints a message and returns early), surfacing no
error and leaving the persisted state untouched. -/
theorem ingest_no_chunks_ok (path : String) (pages : List Page)
    (embed : String → List Int) (disk : Option IndexState)
    (h : chunk_texts pages = []) :
    runIngest path pages embed disk = (disk, none) := by
  simp [runIngest, ingest_pdf, h]

/-- C6 counterexample: a one-page document with empty text yields no chunks,
and `ingest_pdf` returns successfully instead of surfacing the
no-text-extracted error the claim requires. -/
theorem ingest_no_chunks_claim_false :
    ingest_pdf "d.pdf" [{ page := 1, text := "" }] (fun _ => [(0 : Int)]) none
      = Except.ok none ∧
    (Except.ok none
      ≠ (Except.error IngestError.noTextExtracted :
          Except IngestError (Option IndexState))) := by
  have hch : chunk_texts [({ page := 1, text := "" } : Page)] = [] := by
    rw [chunk_texts_single]; rw [chunkFrom]; decide
  refine ⟨?_, by simp⟩
  simp [ingest_pdf, hch]

/-- The single-chunk page used by the concrete ingest witnesses. -/
def pageHi : Page := { page := 1, text := "hi" }

theorem chunk_texts_pageHi :
    chunk_texts [pageHi] = [{ text := "hi", page := 1, chunk_idx := 0 }] := by
  rw [show chunk_texts [pageHi] = chunk_texts [pageHi] 800 100 from rfl,
    chunk_texts_single]
  rw [chunkFrom]; rw [chunkFrom]
  decide

/-- Witness for `ingest_alignment` at a concrete one-document job list. -/
theorem ingest_alignment_witness :
    AlignedDisk (fun _ => [(0 : Int)])
      (some { index := { d := 1, vectors := [[0]] },
              metas := [{ source := "a.pdf", page := 1, chunk_idx := 0, text := "hi" }] }) := by
  refine ingest_alignment (fun _ => [(0 : Int)]) [("a.pdf", [pageHi])] _ ?_
  simp only [foldIngest, ingest_pdf, chunk_texts_pageHi]
  decide

/-- Witness for `ingest_dimension_mismatch` at a concrete mismatching call. -/
theorem ingest_dimension_mismatch_witness :
    runIngest "a.pdf" [pageHi] (fun _ => [(0 : Int)])
        (some { index := { d := 2, vectors := [[0, 0]] },
                metas := [{ source := "b.pdf", page := 1, chunk_idx := 0, text := "x" }] })
      = (some { index := { d := 2, vectors := [[0, 0]] },
                metas := [{ source := "b.pdf", page := 1, chunk_idx := 0, text := "x" }] },
         some IngestError.dimensionMismatch) := by
  refine ingest_dimension_mismatch "a.pdf" [pageHi] (fun _ => [(0 : Int)]) _ 1 ?_ ?_ ?_
  · rw [chunk_texts_pageHi]; decide
  · rw [chunk_texts_pageHi]; decide
  · decide

/-- Witness for `ingest_no_chunks_ok` at a concrete empty-text document. -/
theorem ingest_no_chunks_ok_witness :
    runIngest "d.pdf" [{ page := 1, text := "" }] (fun _ => [(0 : Int)]) none
      = (none, none) := by
  refine ingest_no_chunks_ok "d.pdf" [{ page := 1, text := "" }] (fun _ => [(0 : Int)]) none ?_
  rw [chunk_texts_single]; rw [chunkFrom]; decide

/-- Squared Euclidean distance between two vectors (the metric of
`faiss.IndexFlatL2`). -/
def sqDist (a b : List Int) : Int :=
  (List.zipWith (fun x y => (x - y) * (x - y)) a b).sum

/-- Distance of the stored vector at position `i` from the query vector. -/
def distKey (vecs : List (List Int)) (q : List Int) (i : Nat) : Int :=
  sqDist q (vecs.getD i [])

/-- The candidate ordering of the flat index search: ascending distance,
ties broken by ascending position. -/
def searchRel (vecs : List (List Int)) (q : List Int) (i j : Nat) : Prop :=
  distKey vecs q i < distKey vecs q j ∨
    (distKey vecs q i = distKey vecs q j ∧ i ≤ j)

instance (vecs : List (List Int)) (q : List Int) : DecidableRel (searchRel vecs q) :=
  fun _ _ => inferInstanceAs (Decidable (_ ∨ _))

instance (vecs : List (List Int)) (q : List Int) : IsTotal Nat (searchRel vecs q) :=
  ⟨fun i j => by
    unfold searchRel
    rcases lt_trichotomy (distKey vecs q i) (distKey vecs q j) with h | h | h
    · exact Or.inl (Or.inl h)
    · rcases Nat.le_total i j with hij | hij
      · exact Or.inl (Or.inr ⟨h, hij⟩)
      · exact Or.inr (Or.inr ⟨h.symm, hij⟩)
    · exact Or.inr (Or.inl h)⟩

instance (vecs : List (List Int)) (q : List Int) : IsTrans Nat (searchRel vecs q) :=
  ⟨fun i j k hij hjk => by
    unfold searchRel at hij hjk ⊢
    rcases hij with h1 | ⟨h1, h1'⟩ <;> rcases hjk with h2 | ⟨h2, h2'⟩
    · exact Or.inl (h1.trans h2)
    · exact Or.inl (h2 ▸ h1)
    · exact Or.inl (h1 ▸ h2)
    · exact Or.inr ⟨h1.trans h2, h1'.trans h2'⟩⟩

/-- `index.search(qv, n)` of the flat index: the first `n` positions in
ascending (distance, position) order. -/
def searchL2 (vecs : List (List Int)) (q : List Int) (n : Nat) : List Nat :=
  (List.insertionSort (searchRel vecs q) (List.range vecs.length)).take n

/-- `metas[idx]` read through the FAISS int64 result index (the loops in
`retrieve` only do this after checking `0 <= idx < total`, so the fallback
value is never read). -/
def metaAt (metas : List Meta) (idx : Int) : Meta :=
  metas.getD idx.toNat default

/-- The skip test `allowed_set and src not in allowed_set` of both passes:
never skip without a filter, otherwise skip sources outside the filter
(`allowed_set` is `None` or non-empty, see `normAllowed`). -/
def skipSrc (aset : Option (List String)) (src : String) : Prop :=
  match aset with
  | none => False
  | some l => src ∉ l

instance (aset : Option (List String)) (src : String) : Decidable (skipSrc aset src) :=
  match aset with
  | none => isFalse (fun h => h)
  | some l => inferInstanceAs (Decidable (src ∉ l))

/-- `allowed_set = set(allowed_sources) if allowed_sources else None`:
`None` and the empty collection are both falsy and yield no filter; a
non-empty collection is kept (the `set(...)` conversion only affects
duplicates, not membership). -/
def normAllowed : Option (List String) → Option (List String)
  | none => none
  | some l => if l = [] then none else some l

/-- The first, diversity-limited pass of `retrieve`: skip invalid positions,
skip filtered-out sources, skip a source that already contributed 2 results
(`seen_per_source`), append otherwise, and stop once `k` results are
accumulated. -/
def pass1 (metas : List Meta) (aset : Option (List String)) (k : Nat) :
    List Int → List Meta → (String → Nat) → List Meta
  | [], results, _ => results
  | idx :: rest, results, seen =>
      if idx < 0 ∨ (metas.length : Int) ≤ idx then
        pass1 metas aset k rest results seen
      else
        let meta := metaAt metas idx
        if skipSrc aset meta.source then
          pass1 metas aset k rest results seen
        else if 2 ≤ seen meta.source then
          pass1 metas aset k rest results seen
        else
          let results' := results ++ [meta]
          let seen' := fun s => if s = meta.source then seen meta.source + 1 else seen s
          if k ≤ results'.length then results'
          else pass1 metas aset k rest results' seen'

/-- The fallback pass of `retrieve`: same candidate list and order, skip
invalid positions and filtered-out sources, skip records already selected
(`meta in results`, value identity), no per-source cap, stop at `k`. -/
def pass2 (metas : List Meta) (aset : Option (List String)) (k : Nat) :
    List Int → List Meta → List Meta
  | [], results => results
  | idx :: rest, results =>
      if idx < 0 ∨ (metas.length : Int) ≤ idx then
        pass2 metas aset k rest results
      else
        let meta := metaAt metas idx
        if skipSrc aset meta.source then
          pass2 metas aset k rest results
        else if meta ∈ results then
          pass2 metas aset k rest results
        else
          let results' := results ++ [meta]
          if k ≤ results'.length then results'
          else pass2 metas aset k rest results'

/-- `retrieve(query, k, allowed_sources)` from `retriever.py`, over the loaded
index and metas and the already-embedded query vector: return `[]` on an
empty meta list; ask the index for `search_k = min(total, k * 6)` candidates;
run the diversity-limited first pass; if fewer than `k` results, run the
fallback pass over the same candidates. -/
def retrieve (metas : List Meta) (index : FaissIndex) (qv : List Int) (k : Nat)
    (allowed_sources : Option (List String)) : List Meta :=
  let total := metas.length
  if total = 0 then []
  else
    let search_k := min total (k * 6)
    let cands := (searchL2 index.vectors qv search_k).map Int.ofNat
    let aset := normAllowed allowed_sources
    let results := pass1 metas aset k cands [] (fun _ => 0)
    if results.length < k then pass2 metas aset k cands results else results

/-- The candidate list `I[0]` that `retrieve` iterates over (FAISS returns
int64 indices). -/
def retrieveCands (metas : List Meta) (index : FaissIndex) (qv : List Int) (k : Nat) :
    List Int :=
  (searchL2 index.vectors qv (min metas.length (k * 6))).map Int.ofNat

/-- The per-source running count of the spec's first-pass description: how
many already-accepted results carry the given source. -/
def countSrc (results : List Meta) (src : String) : Nat :=
  results.countP (fun r => r.source == src)

/-- The spec's first pass, transcribed from its words: iterate candidates in
order, skip disallowed sources, skip a source that has already contributed
2 results, accept otherwise, stop at `k`. -/
def specPass1 (metas : List Meta) (aset : Option (List String)) (k : Nat) :
    List Int → List Meta → List Meta
  | [], acc => acc
  | idx :: rest, acc =>
      if idx < 0 ∨ (metas.length : Int) ≤ idx then specPass1 metas aset k rest acc
      else
        let m := metaAt metas idx
        if skipSrc aset m.source then specPass1 metas aset k rest acc
        else if 2 ≤ countSrc acc m.source then specPass1 metas aset k rest acc
        else
          let acc' := acc ++ [m]
          if k ≤ acc'.length then acc' else specPass1 metas aset k rest acc'

/-- The spec's fallback fill, transcribed from its words: re-iterate the same
candidates, skip disallowed sources and records already selected (value
identity), no per-source cap, stop at `k` or exhaustion. -/
def specFill (metas : List Meta) (aset : Option (List String)) (k : Nat) :
    List Int → List Meta → List Meta
  | [], acc => acc
  | idx :: rest, acc =>
      if idx < 0 ∨ (metas.length : Int) ≤ idx then specFill metas aset k rest acc
      else
        let m := metaAt metas idx
        if skipSrc aset m.source then specFill metas aset k rest acc
        else if m ∈ acc then specFill metas aset k rest acc
        else
          let acc' := acc ++ [m]
          if k ≤ acc'.length then acc' else specFill metas aset k rest acc'

/-- The retrieval algorithm exactly as the spec states it: empty index gives
`[]`; request `min(total, k*6)` candidates; run the diversity-limited first
pass; if fewer than `k` results, run the fallback fill over the same list. -/
def specRetrieve (metas : List Meta) (index : FaissIndex) (qv : List Int) (k : Nat)
    (allowed_sources : Option (List String)) : List Meta :=
  if metas.length = 0 then []
  else
    let cands := retrieveCands metas index qv k
    let aset := normAllowed allowed_sources
    let firstPass := specPass1 metas aset k cands []
    if firstPass.length < k then specFill metas aset k cands firstPass else firstPass

theorem countSrc_append_single (acc : List Meta) (m : Meta) (s : String) :
    countSrc (acc ++ [m]) s = countSrc acc s + if m.source = s then 1 else 0 := by
  simp only [countSrc, List.countP_append, List.countP_cons, List.countP_nil]
  by_cases h : m.source = s
  · simp [h]
  · simp [h, beq_iff_eq]

theorem pass1_eq_spec (metas : List Meta) (aset : Option (List String)) (k : Nat) :
    ∀ (cands : List Int) (acc : List Meta) (seen : String → Nat),
      (∀ s, seen s = countSrc acc s) →
      pass1 metas aset k cands acc seen = specPass1 metas aset k cands acc := by
  intro cands
  induction cands with
  | nil => intro acc seen _; rfl
  | cons idx rest ih =>
      intro acc seen hseen
      simp only [pass1, specPass1]
      by_cases h1 : idx < 0 ∨ (metas.length : Int) ≤ idx
      · rw [if_pos h1, if_pos h1]; exact ih acc seen hseen
      · rw [if_neg h1, if_neg h1]
        by_cases h2 : skipSrc aset (metaAt metas idx).source
        · rw [if_pos h2, if_pos h2]; exact ih acc seen hseen
        · rw [if_neg h2, if_neg h2]
          rw [hseen (metaAt metas idx).source]
          by_cases h3 : 2 ≤ countSrc acc (metaAt metas idx).source
          · rw [if_pos h3, if_pos h3]; exact ih acc seen hseen
          · rw [if_neg h3, if_neg h3]
            by_cases h4 : k ≤ (acc ++ [metaAt metas idx]).length
            · rw [if_pos h4, if_pos h4]
            · rw [if_neg h4, if_neg h4]
              refine ih _ _ ?_
              intro s
              rw [countSrc_append_single]
              by_cases h5 : s = (metaAt metas idx).source
              · subst h5
                rw [if_pos rfl, if_pos rfl]
              · rw [if_neg h5, if_neg (fun hc => h5 hc.symm), hseen s]
                omega

theorem pass2_eq_specFill (metas : List Meta) (aset : Option (List String)) (k : Nat) :
    ∀ (cands : List Int) (acc : List Meta),
      pass2 metas aset k cands acc = specFill metas aset k cands acc := by
  intro cands
  induction cands with
  | nil => intro acc; rfl
  | cons idx rest ih =>
      intro acc
      simp only [pass2, specFill]
      split_ifs <;> simp [ih]

theorem pass1_length_le (metas : List Meta) (aset : Option (List String)) (k : Nat) :
    ∀ (cands : List Int) (acc : List Meta) (seen : String → Nat),
      acc.length < k → (pass1 metas aset k cands acc seen).length ≤ k := by
  intro cands
  induction cands with
  | nil => intro acc seen h; rw [pass1]; omega
  | cons idx rest ih =>
      intro acc seen h
      simp only [pass1]
      split_ifs with h1 h2 h3 h4
      · exact ih acc seen h
      · exact ih acc seen h
      · exact ih acc seen h
      · simpa using h
      · refine ih _ _ ?_
        simp only [List.length_append, List.length_singleton] at h4 ⊢
        omega

theorem pass2_length_le (metas : List Meta) (aset : Option (List String)) (k : Nat) :
    ∀ (cands : List Int) (acc : List Meta),
      acc.length < k → (pass2 metas aset k cands acc).length ≤ k := by
  intro cands
  induction cands with
  | nil => intro acc h; rw [pass2]; omega
  | cons idx rest ih =>
      intro acc h
      simp only [pass2]
      split_ifs with h1 h2 h3 h4
      · exact ih acc h
      · exact ih acc h
      · exact ih acc h
      · simpa using h
      · refine ih _ ?_
        simp only [List.length_append, List.length_singleton] at h4 ⊢
        omega

theorem pass2_extends (metas : List Meta) (aset : Option (List String)) (k : Nat) :
    ∀ (cands : List Int) (acc : List Meta),
      ∃ tail, pass2 metas aset k cands acc = acc ++ tail := by
  intro cands
  induction cands with
  | nil => intro acc; exact ⟨[], by rw [pass2, List.append_nil]⟩
  | cons idx rest ih =>
      intro acc
      simp only [pass2]
      split_ifs with h1 h2 h3 h4
      · exact ih acc
      · exact ih acc
      · exact ih acc
      · exact ⟨[metaAt metas idx], rfl⟩
      · obtain ⟨t, ht⟩ := ih (acc ++ [metaAt metas idx])
        exact ⟨[metaAt metas idx] ++ t, by rw [ht, List.append_assoc]⟩

theorem pass2_covers (metas : List Meta) (aset : Option (List String)) (k : Nat) :
    ∀ (cands : List Int) (acc : List Meta),
      (pass2 metas aset k cands acc).length < k →
      ∀ idx ∈ cands, ¬(idx < 0 ∨ (metas.length : Int) ≤ idx) →
        ¬ skipSrc aset (metaAt metas idx).source →
        metaAt metas idx ∈ pass2 metas aset k cands acc := by
  intro cands
  induction cands with
  | nil => intro acc _ idx hmem; exact absurd hmem (List.not_mem_nil idx)
  | cons idx0 rest ih =>
      intro acc hlen idx hmem hvalid hallow
      rcases List.mem_cons.mp hmem with heq | hmem'
      · subst heq
        simp only [pass2] at hlen ⊢
        split_ifs at hlen ⊢ with h1 h2
        · obtain ⟨t, ht⟩ := pass2_extends metas aset k rest acc
          rw [ht]
          exact List.mem_append_left t h1
        · exact absurd hlen (not_lt.mpr h2)
        · obtain ⟨t, ht⟩ := pass2_extends metas aset k rest (acc ++ [metaAt metas idx])
          rw [ht]
          exact List.mem_append_left t (List.mem_append_right acc (List.mem_singleton_self _))
      · simp only [pass2] at hlen ⊢
        split_ifs at hlen ⊢ with h1 h2 h3 h4
        · exact ih acc hlen idx hmem' hvalid hallow
        · exact ih acc hlen idx hmem' hvalid hallow
        · exact ih acc hlen idx hmem' hvalid hallow
        · exact absurd hlen (not_lt.mpr h4)
        · exact ih _ hlen idx hmem' hvalid hallow

/-- The metas of the candidates that survive the validity and source checks
shared by both passes. -/
def candidateMetas (metas : List Meta) (aset : Option (List String)) (cands : List Int) :
    List Meta :=
  cands.filterMap (fun idx =>
    if ¬(idx < 0 ∨ (metas.length : Int) ≤ idx) ∧ ¬ skipSrc aset (metaAt metas idx).source
    then some (metaAt metas idx) else none)

theorem nodup_subset_length_le {α : Type} [DecidableEq α] {l r : List α}
    (h : l.Nodup) (hs : l ⊆ r) : l.length ≤ r.length := by
  calc l.length = l.toFinset.card := (List.toFinset_card_of_nodup h).symm
    _ ≤ r.toFinset.card := Finset.card_le_card (fun x hx => by
        simp only [List.mem_toFinset] at hx ⊢
        exact hs hx)
    _ ≤ r.length := List.toFinset_card_le r

theorem retrieve_unfold (metas : List Meta) (index : FaissIndex) (qv : List Int)
    (k : Nat) (allowed_sources : Option (List String)) :
    retrieve metas index qv k allowed_sources =
      if metas.length = 0 then []
      else
        let cands := retrieveCands metas index qv k
        let aset := normAllowed allowed_sources
        let results := pass1 metas aset k cands [] (fun _ => 0)
        if results.length < k then pass2 metas aset k cands results else results := rfl

/-- C1: `retrieve` requests `min(total, k*6)` candidates in ascending-distance
order and accepts them in exactly the two passes the spec describes: a
diversity-limited first pass (per-source cap 2, stop at `k`), then, if short,
a fallback pass over the same candidates skipping already-selected records by
value with no per-source cap; the result keeps acceptance order with
first-pass results first. Stated as: `retrieve` equals the spec-worded
algorithm, the result extends the first pass's output, and the candidate list
is sorted by ascending distance. -/
theorem retrieve_two_pass (metas : List Meta) (index : FaissIndex) (qv : List Int)
    (k : Nat) (allowed_sources : Option (List String)) (hk : 1 ≤ k) :
    retrieve metas index qv k allowed_sources
        = specRetrieve metas index qv k allowed_sources ∧
    (∃ tail, retrieve metas index qv k allowed_sources
        = specPass1 metas (normAllowed allowed_sources) k
            (retrieveCands metas index qv k) [] ++ tail) ∧
    List.Pairwise (searchRel index.vectors qv)
      (searchL2 index.vectors qv (min metas.length (k * 6))) := by
  have hp1 : pass1 metas (normAllowed allowed_sources) k
        (retrieveCands metas index qv k) [] (fun _ => 0)
      = specPass1 metas (normAllowed allowed_sources) k
        (retrieveCands metas index qv k) [] :=
    pass1_eq_spec _ _ _ _ _ _ (fun s => by simp [countSrc])
  refine ⟨?_, ?_, ?_⟩
  · rw [retrieve_unfold, specRetrieve]
    by_cases h0 : metas.length = 0
    · rw [if_pos h0, if_pos h0]
    · rw [if_neg h0, if_neg h0]
      simp only
      rw [hp1, pass2_eq_specFill]
  · rw [retrieve_unfold]
    by_cases h0 : metas.length = 0
    · rw [if_pos h0]
      refine ⟨[], ?_⟩
      have hcands : retrieveCands metas index qv k = [] := by
        simp [retrieveCands, searchL2, h0]
      rw [hcands, specPass1]
      simp
    · rw [if_neg h0]
      simp only
      rw [hp1]
      by_cases hlt : (specPass1 metas (normAllowed allowed_sources) k
          (retrieveCands metas index qv k) []).length < k
      · rw [if_pos hlt]
        exact pass2_extends _ _ _ _ _
      · rw [if_neg hlt]
        exact ⟨[], by simp⟩
  · exact List.Pairwise.sublist (List.take_sublist _ _)
      (List.sorted_insertionSort (searchRel index.vectors qv) (List.range index.vectors.length))

/-- Witness for `retrieve_two_pass` at a concrete one-record index. -/
theorem retrieve_two_pass_witness :
    retrieve [{ source := "a.pdf", page := 1, chunk_idx := 0, text := "t" }]
        { d := 1, vectors := [[0]] } [0] 1 none
      = specRetrieve [{ source := "a.pdf", page := 1, chunk_idx := 0, text := "t" }]
        { d := 1, vectors := [[0]] } [0] 1 none :=
  (retrieve_two_pass [{ source := "a.pdf", page := 1, chunk_idx := 0, text := "t" }]
    { d := 1, vectors := [[0]] } [0] 1 none (by omega)).1

/-- C2 (amended): for `k ≥ 1` the retrieved sequence never exceeds `k`
records, and it reaches exactly `k` whenever the `search_k = min(total, k*6)`
candidates handed to the passes contain at least `k` allowed records with
pairwise distinct Meta values (the fallback pass deduplicates by value, and
candidates beyond the `search_k` window are never seen, so "at least `k`
allowed records in the index" is not sufficient). -/
theorem retrieve_length_cap (metas : List Meta) (index : FaissIndex) (qv : List Int)
    (k : Nat) (allowed_sources : Option (List String)) (hk : 1 ≤ k) :
    (retrieve metas index qv k allowed_sources).length ≤ k ∧
    (k ≤ (candidateMetas metas (normAllowed allowed_sources)
            (retrieveCands metas index qv k)).dedup.length →
      (retrieve metas index qv k allowed_sources).length = k) := by
  rw [retrieve_unfold]
  by_cases h0 : metas.length = 0
  · rw [if_pos h0]
    refine ⟨by simp, ?_⟩
    intro habs
    exfalso
    have hcands : retrieveCands metas index qv k = [] := by
      simp [retrieveCands, searchL2, h0]
    rw [hcands] at habs
    simp [candidateMetas] at habs
    omega
  · rw [if_neg h0]
    simp only
    set cands := retrieveCands metas index qv k with hcands
    set aset := normAllowed allowed_sources with haset
    set r1 := pass1 metas aset k cands [] (fun _ => 0) with hr1
    have hr1le : r1.length ≤ k := pass1_length_le metas aset k cands [] _ (by simpa using hk)
    by_cases hlt : r1.length < k
    · rw [if_pos hlt]
      set r2 := pass2 metas aset k cands r1 with hr2
      have hr2le : r2.length ≤ k := pass2_length_le metas aset k cands r1 hlt
      refine ⟨hr2le, ?_⟩
      intro hcard
      by_contra hne
      have hr2lt : r2.length < k := lt_of_le_of_ne hr2le hne
      have hsub : candidateMetas metas aset cands ⊆ r2 := by
        intro x hx
        obtain ⟨idx, hidx, hfx⟩ := List.mem_filterMap.mp hx
        by_cases hcond : ¬(idx < 0 ∨ (metas.length : Int) ≤ idx) ∧
            ¬ skipSrc aset (metaAt metas idx).source
        · rw [if_pos hcond] at hfx
          injection hfx with hfx
          rw [← hfx]
          exact pass2_covers metas aset k cands r1 hr2lt idx hidx hcond.1 hcond.2
        · rw [if_neg hcond] at hfx
          exact absurd hfx (by simp)
      have hdsub : (candidateMetas metas aset cands).dedup ⊆ r2 :=
        fun x hx => hsub (List.dedup_subset _ hx)
      have := nodup_subset_length_le (List.nodup_dedup _) hdsub
      omega
    · rw [if_neg hlt]
      exact ⟨hr1le, fun _ => by omega⟩

/-- C2 counterexample: an index holding three records that are equal as
values (all from one source, at distance 0 from the query) has at least
`k = 3` allowed records, yet `retrieve` returns only 2: the first pass stops
at the per-source cap of 2 and the fallback pass skips both remaining
candidates because their Meta value is already selected. -/
theorem retrieve_length_claim_false :
    ([{ source := "a.pdf", page := 1, chunk_idx := 0, text := "t" },
      { source := "a.pdf", page := 1, chunk_idx := 0, text := "t" },
      { source := "a.pdf", page := 1, chunk_idx := 0, text := "t" }] : List Meta).length = 3 ∧
    (retrieve
        [{ source := "a.pdf", page := 1, chunk_idx := 0, text := "t" },
         { source := "a.pdf", page := 1, chunk_idx := 0, text := "t" },
         { source := "a.pdf", page := 1, chunk_idx := 0, text := "t" }]
        { d := 1, vectors := [[0], [0], [0]] } [0] 3 none).length = 2 := by
  constructor
  · rfl
  · decide

/-- Witness for `retrieve_length_cap` at a concrete two-record index. -/
theorem retrieve_length_cap_witness :
    (retrieve
        [{ source := "a.pdf", page := 1, chunk_idx := 0, text := "t" },
         { source := "b.pdf", page := 1, chunk_idx := 0, text := "u" }]
        { d := 1, vectors := [[0], [1]] } [0] 1 none).length ≤ 1 ∧
    (1 ≤ (candidateMetas
            [{ source := "a.pdf", page := 1, chunk_idx := 0, text := "t" },
             { source := "b.pdf", page := 1, chunk_idx := 0, text := "u" }]
            (normAllowed none)
            (retrieveCands
              [{ source := "a.pdf", page := 1, chunk_idx := 0, text := "t" },
               { source := "b.pdf", page := 1, chunk_idx := 0, text := "u" }]
              { d := 1, vectors := [[0], [1]] } [0] 1)).dedup.length →
      (retrieve
        [{ source := "a.pdf", page := 1, chunk_idx := 0, text := "t" },
         { source := "b.pdf", page := 1, chunk_idx := 0, text := "u" }]
        { d := 1, vectors := [[0], [1]] } [0] 1 none).length = 1) :=
  retrieve_length_cap
    [{ source := "a.pdf", page := 1, chunk_idx := 0, text := "t" },
     { source := "b.pdf", page := 1, chunk_idx := 0, text := "u" }]
    { d := 1, vectors := [[0], [1]] } [0] 1 none (by omega)

/-- C10: passing an empty `allowed_sources` collection behaves exactly like
passing no filter at all: `set(allowed_sources) if allowed_sources else None`
maps both the empty collection and `None` to no filter, so no source is
excluded. -/
theorem retrieve_empty_filter_is_no_filter (metas : List Meta) (index : FaissIndex)
    (qv : List Int) (k : Nat) :
    retrieve metas index qv k (some []) = retrieve metas index qv k none := rfl

/-- The three control paths of the external chat-completion call in
`generate_answer`: no client configured (`client is None`), a returned
message content, or a raised exception with its message. -/
inductive LLMOutcome where
  | noClient
  | success (content : String)
  | failure (errMsg : String)

/-- One context entry:
`f"Source: {src} (page {page}, chunk {cidx})\n{text}"`. -/
def contextItem (r : Meta) : String :=
  "Source: " ++ r.source ++ " (page " ++ toString r.page ++ ", chunk "
    ++ toString r.chunk_idx ++ ")\n" ++ r.text

/-- The context block: entries joined by the fixed separator. -/
def buildContext (retrieved : List Meta) : String :=
  joinSep "\n\n---\n\n" (retrieved.map contextItem)

/-- `generate_answer(query, retrieved)` from `retriever.py`: empty retrieval
gives the fixed no-information answer; otherwise build the context block and
either return the no-key fallback (no client), the stripped model reply
(successful call), or the labelled error fallback (raised exception). -/
def generate_answer (query : String) (retrieved : List Meta) (outcome : LLMOutcome) :
    String :=
  if retrieved = [] then
    "I don't know. No information found in the selected documents."
  else
    let context := buildContext retrieved
    match outcome with
    | LLMOutcome.noClient =>
        "No LLM API key configured. Here are the retrieved snippets:\n\n" ++ context
    | LLMOutcome.success content => pyStrip content
    | LLMOutcome.failure e =>
        "OpenAI/Groq API error: " ++ e ++ "\n\n"
          ++ "Here are the retrieved snippets:\n\n" ++ context

/-- `needle` occurs verbatim inside `hay` (as character lists). -/
def containsSub (hay needle : List Char) : Prop :=
  ∃ pre post, hay = pre ++ needle ++ post

theorem containsSub_append_left (p : List Char) {hay needle : List Char}
    (h : containsSub hay needle) : containsSub (p ++ hay) needle := by
  obtain ⟨pre, post, hpp⟩ := h
  exact ⟨p ++ pre, post, by rw [hpp]; simp [List.append_assoc]⟩

theorem containsSub_trans {a b c : List Char}
    (hab : containsSub a b) (hbc : containsSub b c) : containsSub a c := by
  obtain ⟨p1, q1, h1⟩ := hab
  obtain ⟨p2, q2, h2⟩ := hbc
  refine ⟨p1 ++ p2, q2 ++ q1, ?_⟩
  rw [h1, h2]
  simp [List.append_assoc]

theorem joinSep_data_mem (sep : String) :
    ∀ (l : List String) (x : String), x ∈ l →
      containsSub (joinSep sep l).data x.data := by
  intro l
  induction l with
  | nil => intro x hx; exact absurd hx (List.not_mem_nil x)
  | cons a rest ih =>
      intro x hx
      cases rest with
      | nil =>
          have hxa : x = a := by simpa using hx
          subst hxa
          exact ⟨[], [], by simp [joinSep]⟩
      | cons b rest2 =>
          rcases List.mem_cons.mp hx with heq | hmem
          · subst heq
            refine ⟨[], sep.data ++ (joinSep sep (b :: rest2)).data, ?_⟩
            simp [joinSep, String.data_append]
          · obtain ⟨pre, post, hpp⟩ := ih x hmem
            refine ⟨a.data ++ sep.data ++ pre, post, ?_⟩
            simp [joinSep, String.data_append, hpp]

theorem contextItem_has_text (r : Meta) :
    containsSub (contextItem r).data r.text.data := by
  refine ⟨("Source: " ++ r.source ++ " (page " ++ toString r.page ++ ", chunk "
    ++ toString r.chunk_idx ++ ")\n").data, [], ?_⟩
  simp [contextItem, String.data_append]

theorem buildContext_has_text (retrieved : List Meta) (r : Meta) (hr : r ∈ retrieved) :
    containsSub (buildContext retrieved).data r.text.data :=
  containsSub_trans
    (joinSep_data_mem _ (retrieved.map contextItem) (contextItem r)
      (List.mem_map_of_mem contextItem hr))
    (contextItem_has_text r)

/-- C7: with a non-empty retrieval, if no client is configured or the model
call raises, `generate_answer` returns the labelled fallback string that
contains every retrieved record's text verbatim, and (being a total function
on all three outcomes) propagates no failure to the caller. -/
theorem generate_answer_degrades (query : String) (retrieved : List Meta)
    (outcome : LLMOutcome) (hne : retrieved ≠ [])
    (hfail : outcome = LLMOutcome.noClient ∨ ∃ e, outcome = LLMOutcome.failure e) :
    ∀ r ∈ retrieved,
      containsSub (generate_answer query retrieved outcome).data r.text.data := by
  intro r hr
  have hctx := buildContext_has_text retrieved r hr
  rcases hfail with h | ⟨e, h⟩ <;> subst h <;>
    · simp only [generate_answer, if_neg hne]
      rw [String.data_append]
      exact containsSub_append_left _ hctx

/-- Witness for `generate_answer_degrades` at a concrete retrieval. -/
theorem generate_answer_degrades_witness :
    containsSub
      (generate_answer "q"
        [{ source := "a.pdf", page := 1, chunk_idx := 0, text := "hello" }]
        LLMOutcome.noClient).data
      (String.data "hello") :=
  generate_answer_degrades "q"
    [{ source := "a.pdf", page := 1, chunk_idx := 0, text := "hello" }]
    LLMOutcome.noClient (by decide) (Or.inl rfl)
    { source := "a.pdf", page := 1, chunk_idx := 0, text := "hello" } (by decide)

/-- C8: with an empty retrieval, `generate_answer` returns exactly the fixed
no-information string for every query and every outcome of the external
model path — the outcome is never consulted, so no external call is made. -/
theorem generate_answer_empty (query : String) (outcome : LLMOutcome) :
    generate_answer query [] outcome
      = "I don't know. No information found in the selected documents." := rfl
